import Mathlib

/-!
Verification of the pybinding KPM core against its specification.

The definitions below are a shallow embedding of the C++ sources:
* `src/cppcore/include/numeric/arrayref.hpp` — the runtime scalar-type
  dispatch mechanism (`Tag`, `BasicArrayRef`, `VariantArrayConstRef`,
  `detail::try_match`, `detail::try_match2`, `match`, `match2`, `match2sp`);
* `src/cppcore/src/system/Foundation.cpp` — `HamiltonianIndices`,
  `detail::clear_neighbors`, `remove_dangling`;
* `src/cppmodule/src/kpm.cpp` — the KPM engine bindings (`deferred_ldos`,
  the `model` property, `PyOptHam`).
C++ exceptions are embedded as `Except String`; template type lists as
Lean lists of scalar kinds; the generic operation passed to a dispatch as
a Lean function taking the scalar kind it was instantiated at together
with the array reference it was given.
-/

namespace cpb

namespace num

/-- The `enum class Tag {f32, cf32, f64, cf64, b, i8, i16, i32, i64, u8, u16, u32, u64}`
from `arrayref.hpp`. -/
inductive Tag where
  | f32 | cf32 | f64 | cf64 | b
  | i8 | i16 | i32 | i64
  | u8 | u16 | u32 | u64
  deriving DecidableEq, Repr

/-- The closed set of C++ scalar types for which `detail::get_tag` is
specialized in `arrayref.hpp` (float, complex<float>, double,
complex<double>, bool, the signed and the unsigned integers). -/
inductive Scalar where
  | float | complexFloat | double | complexDouble | bool
  | int8 | int16 | int32 | int64
  | uint8 | uint16 | uint32 | uint64
  deriving DecidableEq, Repr

/-- Function `detail::get_tag<scalar_t>()`: the tag of each supported scalar type. -/
def get_tag : Scalar → Tag
  | .float         => .f32
  | .complexFloat  => .cf32
  | .double        => .f64
  | .complexDouble => .cf64
  | .bool          => .b
  | .int8          => .i8
  | .int16         => .i16
  | .int32         => .i32
  | .int64         => .i64
  | .uint8         => .u8
  | .uint16        => .u16
  | .uint32        => .u32
  | .uint64        => .u64

/-- Structure `BasicArrayRef`: tag, row-major flag, data handle, row count,
column count.  The `void*` data pointer is embedded as an opaque numeric
handle. -/
structure ArrayRef where
  tag : Tag
  is_row_major : Bool
  data : Nat
  rows : Int
  cols : Int
  deriving DecidableEq, Repr

/-- The constructor of `VariantArrayConstRef<Scalar, Scalars...>` /
`VariantArrayRef<Scalar, Scalars...>`: copy the base `ArrayRef` fields and
throw `"Invalid VariantArrayConstRef assignment"` when none of the tags of
the declared scalar list equals the reference's tag.  The declared
non-empty parameter pack `<Scalar, Scalars...>` is embedded as
`first :: rest`. -/
def variantConstruct (first : Scalar) (rest : List Scalar) (other : ArrayRef) :
    Except String ArrayRef :=
  let possible_tags := (first :: rest).map get_tag
  let is_invalid := ¬ possible_tags.any (fun tag => other.tag = tag)
  if is_invalid then .error "Invalid VariantArrayConstRef assignment"
  else .ok other

/-- The declared scalar list of the `ComplexArrayConstRef` /
`ComplexArrayRef` typedef: `<float, double, complex<float>, complex<double>>`. -/
def complexTypes : List Scalar := [.float, .double, .complexFloat, .complexDouble]

/-- The declared scalar list of the `RealArrayConstRef` / `RealArrayRef`
typedef: `<float, double>`. -/
def realTypes : List Scalar := [.float, .double]

/-- Function `detail::try_match<Result, Container>(ref, lambda, TypeList<...>)`:
walk the type list; at the first scalar whose tag equals `ref.tag`,
materialize a container of that scalar type over the reference and invoke
the operation; throw `"A match was not found"` when the list is exhausted.
The operation `f` receives the scalar type the container was instantiated
at together with the reference it wraps. -/
def try_match {R : Type} (ref : ArrayRef) (f : Scalar → ArrayRef → R) :
    List Scalar → Except String R
  | [] => .error "A match was not found"
  | s :: tail =>
    if ref.tag = get_tag s then .ok (f s ref) else try_match ref f tail

/-- Dispatch `match<Container>(ref, lambda)` over a variant whose declared
scalar list is `types`: delegate to `try_match` on the variant's type list. -/
def match' {R : Type} (types : List Scalar) (ref : ArrayRef)
    (f : Scalar → ArrayRef → R) : Except String R :=
  try_match ref f types

/-- Function `detail::try_match2<Result, Container1, Container2>(ref1, ref2,
lambda, TypeList<TypeList<S1, S2>...>)`: walk the list of scalar pairs; at the
first pair whose two tags equal the two references' tags, invoke the
operation with the two containers; throw `"A match was not found"` when
the list is exhausted. -/
def try_match2 {R : Type} (ref1 ref2 : ArrayRef)
    (f : Scalar → Scalar → ArrayRef → ArrayRef → R) :
    List (Scalar × Scalar) → Except String R
  | [] => .error "A match was not found"
  | (s1, s2) :: tail =>
    if ref1.tag = get_tag s1 ∧ ref2.tag = get_tag s2 then .ok (f s1 s2 ref1 ref2)
    else try_match2 ref1 ref2 f tail

/-- Modelled from the spec: `tl::Combinations<List1, List2>` from the
repository's `detail/typelist.hpp`, which is not among the provided
sources.  The spec describes it as "the Cartesian product of two views'
allowed type sets": every scalar of the first list paired with every
scalar of the second list. -/
def combinations (l1 l2 : List Scalar) : List (Scalar × Scalar) :=
  l1.flatMap (fun s1 => l2.map (fun s2 => (s1, s2)))

/-- Trait `num::get_real_t<T>` from the repository's `numeric/traits.hpp` (not
among the provided sources, used by `detail::IsSamePrecision`): the real
scalar type underlying a (possibly complex) scalar type.  Modelled from
the spec: "pairs sharing the same real-valued precision (to avoid
nonsensical single/double mixing)". -/
def get_real_t : Scalar → Scalar
  | .float         => .float
  | .complexFloat  => .float
  | .double        => .double
  | .complexDouble => .double
  | s              => s

/-- Predicate `detail::IsSamePrecision<TypeList<T1, T2>>::value`, that is
`std::is_same<get_real_t<T1>, get_real_t<T2>>::value`. -/
def IsSamePrecision (p : Scalar × Scalar) : Bool :=
  get_real_t p.1 = get_real_t p.2

/-- Dispatch `match2<Container1, Container2>(ref1, ref2, lambda)`:
`try_match2` over `tl::Combinations` of the two variants' type lists. -/
def match2 {R : Type} (types1 types2 : List Scalar) (ref1 ref2 : ArrayRef)
    (f : Scalar → Scalar → ArrayRef → ArrayRef → R) : Except String R :=
  try_match2 ref1 ref2 f (combinations types1 types2)

/-- Dispatch `match2sp<Container1, Container2>(ref1, ref2, lambda)`: the same as
`match2` but over `tl::Filter<Combinations, IsSamePrecision>`, the pairs
of the Cartesian product whose scalars share the same real precision.
(`tl::Filter` is from `detail/typelist.hpp`, not among the provided
sources; modelled from the spec as the list filter.) -/
def match2sp {R : Type} (types1 types2 : List Scalar) (ref1 ref2 : ArrayRef)
    (f : Scalar → Scalar → ArrayRef → ArrayRef → R) : Except String R :=
  try_match2 ref1 ref2 f ((combinations types1 types2).filter IsSamePrecision)

/-- Specification vocabulary for the dispatch theorems: the first pair of
a candidate list whose two tags equal the two references' actual tags. -/
def firstMatch2 (ref1 ref2 : ArrayRef) (l : List (Scalar × Scalar)) :
    Option (Scalar × Scalar) :=
  l.find? (fun p => decide (ref1.tag = get_tag p.1) && decide (ref2.tag = get_tag p.2))

end num

/-!
Embedding of `src/cppcore/src/system/Foundation.cpp`.

A foundation's per-site data is embedded as plain lists indexed by the
flat site index `idx` (the C++ code stores `is_valid : ArrayX<bool>` and
works with `neighbor_count : ArrayX<int16_t>` indexed the same way).  The
geometric neighbour relation produced by `site.for_each_neighbour` is
embedded as an adjacency list `adj : List (List Nat)` giving, for every
site, the indices of its in-bounds neighbours.
-/

/-- The accumulation loop of `HamiltonianIndices::HamiltonianIndices`:
walk the `is_valid` array with the running counter `num_valid_sites`;
a valid site receives the counter's current value (post-incrementing it),
an invalid site keeps the initial value `-1`. -/
def hamIndicesGo : List Bool → Nat → List Int × Nat
  | [], n => ([], n)
  | v :: rest, n =>
    if v then
      let r := hamIndicesGo rest (n + 1)
      ((n : Int) :: r.1, r.2)
    else
      let r := hamIndicesGo rest n
      ((-1 : Int) :: r.1, r.2)

/-- Structure `HamiltonianIndices`: the per-site Hamiltonian index array
and the number of valid sites. -/
structure HamiltonianIndices where
  indices : List Int
  num_valid_sites : Nat
  deriving DecidableEq, Repr

/-- Constructor `HamiltonianIndices::HamiltonianIndices(foundation)`:
`indices` starts as `Constant(num_sites, -1)` and every valid site is
assigned `num_valid_sites++` in increasing order of the site index.  The
foundation is represented by its `is_valid` state array. -/
def hamiltonianIndices (is_valid : List Bool) : HamiltonianIndices :=
  let r := hamIndicesGo is_valid 0
  ⟨r.1, r.2⟩

/-- The mutable per-site state threaded through `clear_neighbors` and
`remove_dangling`: the validity flags and the neighbour counts. -/
structure FState where
  is_valid : List Bool
  neighbor_count : List Int
  deriving DecidableEq, Repr

mutual

/-- Function `detail::clear_neighbors(site, neighbor_count, min_neighbors)`,
embedded with an explicit recursion-depth budget `fuel` charged once per
nested `clear_neighbors` call; `none` means the budget was exhausted.
The function returns the state unchanged when the site's neighbour count
is zero; otherwise it runs `clearLoopF` over the site's neighbour list
and finally zeroes the site's own count. -/
def clearSiteF (min_neighbors : Int) (adj : List (List Nat)) :
    Nat → FState → Nat → Option FState
  | 0, _, _ => none
  | fuel + 1, st, site =>
    if st.neighbor_count.getD site 0 = 0 then some st
    else
      match clearLoopF min_neighbors adj fuel st (adj.getD site []) with
      | none => none
      | some st1 => some ⟨st1.is_valid, st1.neighbor_count.set site 0⟩
  termination_by fuel _ _ => (fuel, 0)

/-- The `site.for_each_neighbour` loop of `detail::clear_neighbors`: skip
invalid neighbours; for a valid neighbour decrement its count and, when
the count drops below `min_neighbors`, mark the neighbour invalid and
recurse into it (`clearSiteF`) before continuing with the remaining
neighbours. -/
def clearLoopF (min_neighbors : Int) (adj : List (List Nat)) :
    Nat → FState → List Nat → Option FState
  | _, st, [] => some st
  | fuel, st, nb :: rest =>
    if st.is_valid.getD nb false then
      let counts1 := st.neighbor_count.set nb (st.neighbor_count.getD nb 0 - 1)
      if counts1.getD nb 0 < min_neighbors then
        match clearSiteF min_neighbors adj fuel ⟨st.is_valid.set nb false, counts1⟩ nb with
        | none => none
        | some st2 => clearLoopF min_neighbors adj fuel st2 rest
      else
        clearLoopF min_neighbors adj fuel ⟨st.is_valid, counts1⟩ rest
    else
      clearLoopF min_neighbors adj fuel st rest
  termination_by fuel _ nbs => (fuel, nbs.length + 1)

end

/-- The loop of `remove_dangling(foundation, min_neighbors)`: for every
site of the foundation, in index order, call `detail::clear_neighbors` on
it when it is invalid. -/
def removeDanglingGo (min_neighbors : Int) (adj : List (List Nat)) (fuel : Nat) :
    FState → List Nat → Option FState
  | st, [] => some st
  | st, i :: rest =>
    if st.is_valid.getD i false then removeDanglingGo min_neighbors adj fuel st rest
    else
      match clearSiteF min_neighbors adj fuel st i with
      | none => none
      | some st1 => removeDanglingGo min_neighbors adj fuel st1 rest

/-- Function `remove_dangling(foundation, min_neighbors)` with the
recursion-depth budget set to one more than the number of sites of the
foundation (the number of valid sites never exceeds the number of sites,
and each nested `clear_neighbors` call is preceded by one site turning
invalid). -/
def remove_dangling (min_neighbors : Int) (adj : List (List Nat)) (st : FState) :
    Option FState :=
  removeDanglingGo min_neighbors adj (st.is_valid.length + 1) st
    (List.range st.is_valid.length)

/-!
Embedding of the KPM engine surface of `src/cppmodule/src/kpm.cpp`.

The bodies of `KPM::calc_ldos`, `KPM::set_model` and
`kpm::OptimizedHamiltonian::optimize_for` are not among the provided
sources (only their bindings and callers are), so those parts are
modelled from the spec, as marked on each definition.  The lambda-capture
semantics of `deferred_ldos` is embedded from the source that is present:
`[=, &kpm]` captures the four request arguments (and the `self` handle)
by value and the engine `kpm` by reference, so the packaged unit of work
reads the engine's state at execution time and the argument values frozen
at creation time.
-/

namespace kpm

/-- The four arguments of `KPM::calc_ldos(energy, broadening, position,
sublattice)` as they appear in the `deferred_ldos` binding.  The numeric
payloads are embedded as integer data: the claims about them concern only
how the values are captured and passed, never their arithmetic. -/
structure LdosArgs where
  energy : List Int
  broadening : Int
  position : Int × Int × Int
  sublattice : String
  deriving DecidableEq, Repr

/-- Modelled from the spec: `KPM::calc_ldos`, whose body is not among the
provided sources.  The spec fixes that the LDOS is computed from the
engine's currently bound model's Hamiltonian together with the request
arguments (section 4.6 and the end-to-end scenario of section 8, where
different matrices produce different LDOS results).  The result is
therefore modelled as the record of the model and the arguments the
computation consumed, which is exactly the observable that the capture
claims are about. -/
structure LdosResult (M : Type) where
  model_used : M
  args_used : LdosArgs
  deriving DecidableEq, Repr

/-- The engine state relevant to `deferred_ldos`: the bound model, as
replaced by the `model` property setter `KPM::set_model`. -/
structure KPMState (M : Type) where
  model : M
  deriving DecidableEq, Repr

/-- Modelled from the spec: the computation `KPM::calc_ldos` performs,
reduced to its dependence structure (see `LdosResult`). -/
def calc_ldos {M : Type} (m : M) (a : LdosArgs) : LdosResult M :=
  ⟨m, a⟩

/-- Setter `KPM::set_model` as far as `deferred_ldos` observes it:
the bound model is replaced. -/
def KPMState.set_model {M : Type} (_ : KPMState M) (m : M) : KPMState M :=
  ⟨m⟩

/-- The `Deferred<ArrayXd>` built by the `deferred_ldos` binding: the
lambda `[=, &kpm]` stores the four request arguments by value; the engine
itself is held only by reference (plus the `self` handle that keeps it
alive), so no engine state is stored in the thunk. -/
structure DeferredLdos where
  args : LdosArgs
  deriving DecidableEq, Repr

/-- Binding `deferred_ldos(self, energy, broadening, position, sublattice)`
from `kpm.cpp`: package the request as a zero-argument unit of work. -/
def deferred_ldos (energy : List Int) (broadening : Int)
    (position : Int × Int × Int) (sublattice : String) : DeferredLdos :=
  ⟨⟨energy, broadening, position, sublattice⟩⟩

/-- Executing the deferred unit of work: the stored lambda calls
`kpm.calc_ldos` through its reference to the engine, so it reads the
engine's state as it is at execution time, with the captured argument
values. -/
def DeferredLdos.run {M : Type} (d : DeferredLdos) (engine_at_exec : KPMState M) :
    LdosResult M :=
  calc_ldos engine_at_exec.model d.args

/-- The caching engine state of the `Greens`/KPM orchestrator: the bound
model, the lazily computed `Bounds` cache, and the
`OptimizedHamiltonian` cache keyed by the seed-index set. -/
structure Engine (M B O : Type) where
  model : M
  bounds_cache : Option B
  oh_cache : List (List Nat × O)

/-- Modelled from the spec: `KPM::set_model` (the `model` property setter
of `kpm.cpp`, body not among the provided sources): "set/replace matrix
(invalidates all cached OptimizedHamiltonian states and Bounds)". -/
def Engine.set_model {M B O : Type} (_ : Engine M B O) (m : M) : Engine M B O :=
  ⟨m, none, []⟩

/-- Modelled from the spec: the lazy `Bounds` computation — "Bounds
computed lazily on first use and cached"; `estimate` is the Lanczos
bounds estimator applied to the bound model. -/
def Engine.get_bounds {M B O : Type} (estimate : M → B) (e : Engine M B O) :
    B × Engine M B O :=
  match e.bounds_cache with
  | some b => (b, e)
  | none =>
    let b := estimate e.model
    (b, ⟨e.model, some b, e.oh_cache⟩)

/-- Modelled from the spec: `optimize_for` with its caching policy —
"keyed by the exact seed-index set; a cache hit returns the previously
built state without recomputation"; `build` builds an
`OptimizedHamiltonian` state from the bound model, the bounds and the
seed set. -/
def Engine.get_oh {M B O : Type} (estimate : M → B)
    (build : M → B → List Nat → O) (e : Engine M B O) (seeds : List Nat) :
    O × Engine M B O :=
  match (e.get_bounds estimate) with
  | (b, e1) =>
    match e1.oh_cache.lookup seeds with
    | some oh => (oh, e1)
    | none =>
      let oh := build e1.model b seeds
      (oh, ⟨e1.model, e1.bounds_cache, (seeds, oh) :: e1.oh_cache⟩)

/-- Modelled from the spec (section 4.3): the set of matrix entries
"reachable from the seed set within k hops of the sparsity graph"; one
step adjoins every neighbour of the current set, so "the active size
grows by at most one sparsity shell per recursion step". -/
def reachable {n : Nat} (adj : Fin n → Finset (Fin n)) (seeds : Finset (Fin n)) :
    Nat → Finset (Fin n)
  | 0 => seeds
  | k + 1 =>
    let r := reachable adj seeds k
    r ∪ r.biUnion adj

/-- Modelled from the spec: the "per-step reachable-size sequence" of an
`OptimizedHamiltonian` state built by `optimize_for` and exposed as
`sizes` through `PyOptHam::ReturnSizes` in `kpm.cpp`. -/
def sizes {n : Nat} (adj : Fin n → Finset (Fin n)) (seeds : Finset (Fin n))
    (k : Nat) : Nat :=
  (reachable adj seeds k).card

end kpm

end cpb

/-! ## Dispatch lemmas and theorems -/

open cpb cpb.num cpb.kpm

lemma tryMatch_eq_find {R : Type} (ref : ArrayRef) (f : Scalar → ArrayRef → R)
    (types : List Scalar) :
    try_match ref f types =
      match types.find? (fun t => decide (ref.tag = get_tag t)) with
      | some s => Except.ok (f s ref)
      | none => Except.error "A match was not found" := by
  induction types with
  | nil => rfl
  | cons s tail ih =>
    by_cases h : ref.tag = get_tag s <;> simp [try_match, List.find?, h, ih]

lemma tryMatch_error_iff {R : Type} (ref : ArrayRef) (f : Scalar → ArrayRef → R)
    (types : List Scalar) :
    try_match ref f types = Except.error "A match was not found" ↔
      ref.tag ∉ types.map get_tag := by
  induction types with
  | nil => simp [try_match]
  | cons s tail ih =>
    by_cases h : ref.tag = get_tag s <;> simp [try_match, h, ih]

lemma firstMatch2_cons (ref1 ref2 : ArrayRef) (s1 s2 : Scalar)
    (tail : List (Scalar × Scalar)) :
    firstMatch2 ref1 ref2 ((s1, s2) :: tail) =
      if ref1.tag = get_tag s1 ∧ ref2.tag = get_tag s2 then some (s1, s2)
      else firstMatch2 ref1 ref2 tail := by
  by_cases h1 : ref1.tag = get_tag s1 <;> by_cases h2 : ref2.tag = get_tag s2 <;>
    simp [firstMatch2, List.find?_cons, h1, h2]

lemma tryMatch2_eq_find {R : Type} (ref1 ref2 : ArrayRef)
    (g : Scalar → Scalar → ArrayRef → ArrayRef → R) (l : List (Scalar × Scalar)) :
    try_match2 ref1 ref2 g l =
      match firstMatch2 ref1 ref2 l with
      | some p => Except.ok (g p.1 p.2 ref1 ref2)
      | none => Except.error "A match was not found" := by
  induction l with
  | nil => rfl
  | cons p tail ih =>
    obtain ⟨s1, s2⟩ := p
    rw [firstMatch2_cons]
    by_cases h : ref1.tag = get_tag s1 ∧ ref2.tag = get_tag s2
    · rw [if_pos h]
      simp only [try_match2, if_pos h]
    · rw [if_neg h]
      simp only [try_match2, if_neg h]
      exact ih

lemma tryMatch2_error_iff {R : Type} (ref1 ref2 : ArrayRef)
    (g : Scalar → Scalar → ArrayRef → ArrayRef → R) (l : List (Scalar × Scalar)) :
    try_match2 ref1 ref2 g l = Except.error "A match was not found" ↔
      (ref1.tag, ref2.tag) ∉ l.map (fun p => (get_tag p.1, get_tag p.2)) := by
  induction l with
  | nil => simp [try_match2]
  | cons p tail ih =>
    obtain ⟨s1, s2⟩ := p
    simp only [List.map_cons, List.mem_cons]
    by_cases h : ref1.tag = get_tag s1 ∧ ref2.tag = get_tag s2
    · simp only [try_match2, if_pos h]
      simp [h.1, h.2]
    · simp only [try_match2, if_neg h]
      rw [ih]
      have hne : (ref1.tag, ref2.tag) ≠ (get_tag s1, get_tag s2) := by
        intro hc
        rw [Prod.mk.injEq] at hc
        exact h hc
      simp [hne]

lemma mem_combinations (l1 l2 : List Scalar) (p : Scalar × Scalar) :
    p ∈ combinations l1 l2 ↔ p.1 ∈ l1 ∧ p.2 ∈ l2 := by
  obtain ⟨x, y⟩ := p
  simp only [combinations, List.mem_flatMap, List.mem_map, Prod.mk.injEq]
  constructor
  · rintro ⟨a, ha, b, hb, rfl, rfl⟩
    exact ⟨ha, hb⟩
  · rintro ⟨hx, hy⟩
    exact ⟨x, hx, y, hy, rfl, rfl⟩

/-- C1: for every variant array reference whose tag belongs to its
declared type set, `match` selects the first scalar type of the declared
type list whose tag equals the reference's actual tag, invokes the
operation with a container of exactly that scalar type bound to the
reference, and returns that operation's result (the embedding is pure, so
the returned value being the operation's output at that single container
is the invoked-exactly-once observation). -/
theorem match_invokes_first_matching_type {R : Type} (types : List Scalar)
    (ref : ArrayRef) (f : Scalar → ArrayRef → R)
    (h : ref.tag ∈ types.map get_tag) :
    ∃ s, types.find? (fun t => decide (ref.tag = get_tag t)) = some s ∧
      ref.tag = get_tag s ∧ s ∈ types ∧
      match' types ref f = Except.ok (f s ref) := by
  obtain ⟨t, ht, htag⟩ := List.mem_map.mp h
  have hsome : (types.find? (fun t => decide (ref.tag = get_tag t))).isSome := by
    refine List.find?_isSome.mpr ⟨t, ht, ?_⟩
    simp [htag]
  obtain ⟨s, hs⟩ := Option.isSome_iff_exists.mp hsome
  have hp : decide (ref.tag = get_tag s) = true := by
    simpa using List.find?_some hs
  refine ⟨s, hs, of_decide_eq_true hp, List.mem_of_find?_eq_some hs, ?_⟩
  rw [match', tryMatch_eq_find, hs]

/-- Witness for C1: a `cf64`-tagged reference against the
`ComplexArrayConstRef` type list. -/
theorem match_invokes_first_matching_type_witness :
    ∃ s, complexTypes.find?
        (fun t => decide ((ArrayRef.mk .cf64 true 7 1 4).tag = get_tag t)) = some s ∧
      (ArrayRef.mk .cf64 true 7 1 4).tag = get_tag s ∧ s ∈ complexTypes ∧
      match' complexTypes (ArrayRef.mk .cf64 true 7 1 4) (fun s r => (s, r)) =
        Except.ok (s, ArrayRef.mk .cf64 true 7 1 4) :=
  match_invokes_first_matching_type complexTypes (ArrayRef.mk .cf64 true 7 1 4)
    (fun s r => (s, r)) (by decide)

/-- C3: a dispatch returns the no-match runtime error exactly when the
actual tag (or pair of tags) matches no candidate of the declared type
list (or pair list); in particular, for a tag in the declared set the
error branch is never taken, and for a tag outside it the error is raised
after the list is exhausted rather than a coerced or default value being
returned. -/
theorem dispatch_no_match_error_iff {R : Type} (types : List Scalar)
    (pairs : List (Scalar × Scalar)) (ref ref1 ref2 : ArrayRef)
    (f : Scalar → ArrayRef → R) (g : Scalar → Scalar → ArrayRef → ArrayRef → R) :
    (match' types ref f = Except.error "A match was not found" ↔
      ref.tag ∉ types.map get_tag) ∧
    (try_match2 ref1 ref2 g pairs = Except.error "A match was not found" ↔
      (ref1.tag, ref2.tag) ∉ pairs.map (fun p => (get_tag p.1, get_tag p.2))) :=
  ⟨tryMatch_error_iff ref f types, tryMatch2_error_iff ref1 ref2 g pairs⟩

/-- Witness for C3: an `i32`-tagged reference against the
`RealArrayConstRef` type list raises the no-match error. -/
theorem dispatch_no_match_error_iff_witness :
    match' realTypes (ArrayRef.mk .i32 true 0 1 2) (fun _ _ => (0 : Nat)) =
      Except.error "A match was not found" :=
  (dispatch_no_match_error_iff realTypes [] (ArrayRef.mk .i32 true 0 1 2)
    (ArrayRef.mk .i32 true 0 1 2) (ArrayRef.mk .i32 true 0 1 2)
    (fun _ _ => (0 : Nat)) (fun _ _ _ _ => (0 : Nat))).1.mpr (by decide)

/-- C4: constructing a `VariantArrayConstRef`/`VariantArrayRef` throws
the type-mismatch runtime error exactly when the source reference's tag
is outside the declared scalar set; when the tag is inside the set the
construction succeeds and returns the source reference's tag, row-major
flag, data handle, row count and column count unchanged. -/
lemma variant_any_iff (first : Scalar) (rest : List Scalar) (other : ArrayRef) :
    (((first :: rest).map get_tag).any (fun tag => decide (other.tag = tag)) = true) ↔
      other.tag ∈ (first :: rest).map get_tag := by
  simp only [List.any_eq_true, decide_eq_true_eq]
  constructor
  · rintro ⟨x, hx, rfl⟩
    exact hx
  · intro hx
    exact ⟨other.tag, hx, rfl⟩

lemma variantConstruct_eq (first : Scalar) (rest : List Scalar) (other : ArrayRef) :
    variantConstruct first rest other =
      if other.tag ∈ (first :: rest).map get_tag then Except.ok other
      else Except.error "Invalid VariantArrayConstRef assignment" := by
  by_cases h : other.tag ∈ (first :: rest).map get_tag
  · rw [if_pos h]
    simp only [variantConstruct]
    rw [if_neg (not_not_intro ((variant_any_iff first rest other).mpr h))]
  · rw [if_neg h]
    simp only [variantConstruct]
    rw [if_pos (fun hc => h ((variant_any_iff first rest other).mp hc))]

/-- C4: constructing a `VariantArrayConstRef`/`VariantArrayRef` throws
the type-mismatch runtime error exactly when the source reference's tag
is outside the declared scalar set; when the tag is inside the set the
construction succeeds and returns the source reference's tag, row-major
flag, data handle, row count and column count unchanged. -/
theorem variant_construction_tag_check (first : Scalar) (rest : List Scalar)
    (other : ArrayRef) :
    (variantConstruct first rest other =
        Except.error "Invalid VariantArrayConstRef assignment" ↔
      other.tag ∉ (first :: rest).map get_tag) ∧
    (other.tag ∈ (first :: rest).map get_tag →
      variantConstruct first rest other =
        Except.ok (ArrayRef.mk other.tag other.is_row_major other.data
          other.rows other.cols)) := by
  constructor
  · rw [variantConstruct_eq]
    by_cases h : other.tag ∈ (first :: rest).map get_tag
    · rw [if_pos h]
      exact iff_of_false (by simp) (not_not_intro h)
    · rw [if_neg h]
      exact iff_of_true rfl h
  · intro h
    rw [variantConstruct_eq, if_pos h]

/-- Witness for C4: an `f64`-tagged reference is accepted by the
`RealArrayConstRef` set with all fields preserved. -/
theorem variant_construction_tag_check_witness :
    variantConstruct .float [.double] (ArrayRef.mk .f64 false 5 2 3) =
      Except.ok (ArrayRef.mk .f64 false 5 2 3) :=
  (variant_construction_tag_check .float [.double]
    (ArrayRef.mk .f64 false 5 2 3)).2 (by decide)

/-- C5: `match2` dispatches over the full Cartesian product of the two
declared type lists and invokes the operation on the first pair whose two
tags both equal the references' actual tags (raising the no-match error
when there is none); `match2sp` performs the same matching restricted to
the pairs of the product whose two scalar types share the same underlying
real precision. -/
theorem match2_cartesian_and_precision_filter {R : Type} (t1 t2 : List Scalar)
    (ref1 ref2 : ArrayRef) (f : Scalar → Scalar → ArrayRef → ArrayRef → R) :
    (∀ p : Scalar × Scalar, p ∈ combinations t1 t2 ↔ p.1 ∈ t1 ∧ p.2 ∈ t2) ∧
    (match2 t1 t2 ref1 ref2 f =
      match firstMatch2 ref1 ref2 (combinations t1 t2) with
      | some p => Except.ok (f p.1 p.2 ref1 ref2)
      | none => Except.error "A match was not found") ∧
    (∀ p : Scalar × Scalar,
      p ∈ (combinations t1 t2).filter IsSamePrecision ↔
        p ∈ combinations t1 t2 ∧ IsSamePrecision p) ∧
    (match2sp t1 t2 ref1 ref2 f =
      match firstMatch2 ref1 ref2 ((combinations t1 t2).filter IsSamePrecision) with
      | some p => Except.ok (f p.1 p.2 ref1 ref2)
      | none => Except.error "A match was not found") :=
  ⟨mem_combinations t1 t2,
   tryMatch2_eq_find ref1 ref2 f (combinations t1 t2),
   fun p => by simp [List.mem_filter],
   tryMatch2_eq_find ref1 ref2 f ((combinations t1 t2).filter IsSamePrecision)⟩

/-- Witness for C5: mixed `f32`/`f64` references against the
`RealArrayConstRef` product match at the pair `(float, double)`. -/
theorem match2_cartesian_and_precision_filter_witness :
    match2 realTypes realTypes (ArrayRef.mk .f32 true 0 1 2)
        (ArrayRef.mk .f64 true 1 1 2) (fun s1 s2 _ _ => (s1, s2)) =
      Except.ok (Scalar.float, Scalar.double) := by
  rw [(match2_cartesian_and_precision_filter realTypes realTypes
    (ArrayRef.mk .f32 true 0 1 2) (ArrayRef.mk .f64 true 1 1 2)
    (fun s1 s2 _ _ => (s1, s2))).2.1]
  rfl

/-- C8: a `f32`-tagged reference and a `f64`-tagged reference each pass
variant construction against the four-type complex scalar set, and
`match2` finds a matching pair for them, yet `match2sp` raises the
no-match runtime error because the same-precision filter removes every
candidate pair — the two-argument no-match error is reachable with
individually valid inputs of mixed precision. -/
theorem match2sp_mixed_precision_no_match :
    variantConstruct .float [.double, .complexFloat, .complexDouble]
        (ArrayRef.mk .f32 true 0 1 3) =
      Except.ok (ArrayRef.mk .f32 true 0 1 3) ∧
    variantConstruct .float [.double, .complexFloat, .complexDouble]
        (ArrayRef.mk .f64 true 1 1 3) =
      Except.ok (ArrayRef.mk .f64 true 1 1 3) ∧
    match2 complexTypes complexTypes (ArrayRef.mk .f32 true 0 1 3)
        (ArrayRef.mk .f64 true 1 1 3) (fun _ _ _ _ => (0 : Nat)) =
      Except.ok 0 ∧
    match2sp complexTypes complexTypes (ArrayRef.mk .f32 true 0 1 3)
        (ArrayRef.mk .f64 true 1 1 3) (fun _ _ _ _ => (0 : Nat)) =
      Except.error "A match was not found" := by
  refine ⟨rfl, rfl, rfl, rfl⟩

/-! ## Foundation lemmas and theorems -/

lemma hamIndicesGo_snd (v : List Bool) : ∀ n, (cpb.hamIndicesGo v n).2 = n + v.count true := by
  induction v with
  | nil => intro n; simp [cpb.hamIndicesGo]
  | cons x rest ih =>
    intro n
    cases x
    · simp [cpb.hamIndicesGo, ih, List.count_cons]
    · simp [cpb.hamIndicesGo, ih, List.count_cons]
      omega

lemma hamIndicesGo_length (v : List Bool) : ∀ n, (cpb.hamIndicesGo v n).1.length = v.length := by
  induction v with
  | nil => intro n; simp [cpb.hamIndicesGo]
  | cons x rest ih =>
    intro n
    cases x <;> simp [cpb.hamIndicesGo, ih]

lemma hamIndicesGo_getD (v : List Bool) :
    ∀ n i, i < v.length →
      (cpb.hamIndicesGo v n).1.getD i (-1) =
        if v.getD i false then ((n + (v.take i).count true : Nat) : Int) else -1 := by
  induction v with
  | nil => intro n i hi; simp at hi
  | cons x rest ih =>
    intro n i hi
    cases i with
    | zero => cases x <;> simp [cpb.hamIndicesGo]
    | succ i =>
      have hi' : i < rest.length := by simpa using hi
      cases x with
      | true =>
        have hstep : (cpb.hamIndicesGo (true :: rest) n).1 =
            (n : Int) :: (cpb.hamIndicesGo rest (n + 1)).1 := by
          simp [cpb.hamIndicesGo]
        rw [hstep, List.getD_cons_succ, ih (n + 1) i hi', List.getD_cons_succ,
          List.take_succ_cons]
        by_cases hv : rest.getD i false
        · rw [if_pos hv, if_pos hv]
          simp [List.count_cons]
          omega
        · rw [if_neg hv, if_neg hv]
      | false =>
        have hstep : (cpb.hamIndicesGo (false :: rest) n).1 =
            (-1 : Int) :: (cpb.hamIndicesGo rest n).1 := by
          simp [cpb.hamIndicesGo]
        rw [hstep, List.getD_cons_succ, ih n i hi', List.getD_cons_succ,
          List.take_succ_cons]
        by_cases hv : rest.getD i false
        · rw [if_pos hv, if_pos hv]
          simp [List.count_cons]
        · rw [if_neg hv, if_neg hv]

lemma getD_eq_true_some (v : List Bool) (i : Nat) (h : v.getD i false = true) :
    v[i]? = some true := by
  cases hvi : v[i]? with
  | none => rw [List.getD_eq_getElem?_getD, hvi] at h; simp at h
  | some b =>
    rw [List.getD_eq_getElem?_getD, hvi] at h
    simp at h
    rw [h]

lemma count_take_lt (v : List Bool) (i j : Nat) (hij : i < j)
    (hi : v.getD i false = true) :
    (v.take i).count true < (v.take j).count true := by
  have h1 : (v.take (i + 1)).count true = (v.take i).count true + 1 := by
    rw [List.take_succ, getD_eq_true_some v i hi]
    simp
  have h2 : (v.take (i + 1)).count true ≤ (v.take j).count true := by
    have ht : v.take (i + 1) = (v.take j).take (i + 1) := by
      rw [List.take_take, min_eq_left hij]
    rw [ht]
    exact (List.take_sublist _ _).count_le _
  omega

lemma exists_valid_with_prefix_count (v : List Bool) :
    ∀ k, k < v.count true →
      ∃ i, i < v.length ∧ v.getD i false = true ∧ (v.take i).count true = k := by
  induction v with
  | nil => intro k hk; simp at hk
  | cons x rest ih =>
    intro k hk
    cases x with
    | true =>
      cases k with
      | zero => exact ⟨0, by simp, by simp, by simp⟩
      | succ k' =>
        have hk' : k' < rest.count true := by
          simp [List.count_cons] at hk
          omega
        obtain ⟨i, hi, hvi, hc⟩ := ih k' hk'
        refine ⟨i + 1, by simpa using hi, by simpa using hvi, ?_⟩
        simp [List.count_cons, hc]
    | false =>
      have hk' : k < rest.count true := by
        simpa [List.count_cons] using hk
      obtain ⟨i, hi, hvi, hc⟩ := ih k hk'
      refine ⟨i + 1, by simpa using hi, by simpa using hvi, ?_⟩
      simp [List.count_cons, hc]

/-- C9: after constructing `HamiltonianIndices` from a foundation,
`indices[i]` is non-negative exactly for the valid sites; every invalid
site keeps `-1`; a valid site `i` receives the number of valid sites
before it, so the valid sites receive the consecutive indices
`0 .. num_valid_sites - 1` in increasing order of the original site index
— an order-preserving bijection from the valid sites onto
`[0, num_valid_sites)` (strictly monotone and surjective). -/
theorem hamiltonian_indices_spec (v : List Bool) :
    (cpb.hamiltonianIndices v).indices.length = v.length ∧
    (cpb.hamiltonianIndices v).num_valid_sites = v.count true ∧
    (∀ i, i < v.length →
      (0 ≤ (cpb.hamiltonianIndices v).indices.getD i (-1) ↔ v.getD i false = true)) ∧
    (∀ i, i < v.length → v.getD i false = false →
      (cpb.hamiltonianIndices v).indices.getD i (-1) = -1) ∧
    (∀ i, i < v.length → v.getD i false = true →
      (cpb.hamiltonianIndices v).indices.getD i (-1) = ((v.take i).count true : Int)) ∧
    (∀ i j, i < j → j < v.length → v.getD i false = true → v.getD j false = true →
      (cpb.hamiltonianIndices v).indices.getD i (-1) <
        (cpb.hamiltonianIndices v).indices.getD j (-1)) ∧
    (∀ k : Nat, k < v.count true → ∃ i, i < v.length ∧ v.getD i false = true ∧
      (cpb.hamiltonianIndices v).indices.getD i (-1) = (k : Int)) := by
  have hgetD : ∀ i, i < v.length →
      (cpb.hamiltonianIndices v).indices.getD i (-1) =
        if v.getD i false then (((v.take i).count true : Nat) : Int) else -1 := by
    intro i hi
    have h0 := hamIndicesGo_getD v 0 i hi
    rw [show (cpb.hamiltonianIndices v).indices = (cpb.hamIndicesGo v 0).1 from rfl, h0]
    simp only [Nat.zero_add]
  refine ⟨?_, ?_, ?_, ?_, ?_, ?_, ?_⟩
  · exact hamIndicesGo_length v 0
  · simpa using hamIndicesGo_snd v 0
  · intro i hi
    rw [hgetD i hi]
    by_cases hv : v.getD i false
    · rw [if_pos hv]
      exact iff_of_true (Int.natCast_nonneg _) hv
    · rw [if_neg hv]
      exact iff_of_false (by decide) hv
  · intro i hi hv
    rw [hgetD i hi, if_neg (by rw [hv]; simp)]
  · intro i hi hv
    rw [hgetD i hi, if_pos hv]
  · intro i j hij hj hvi hvj
    have hi : i < v.length := lt_trans hij hj
    rw [hgetD i hi, if_pos hvi, hgetD j hj, if_pos hvj]
    exact_mod_cast count_take_lt v i j hij hvi
  · intro k hk
    obtain ⟨i, hi, hvi, hc⟩ := exists_valid_with_prefix_count v k hk
    refine ⟨i, hi, hvi, ?_⟩
    rw [hgetD i hi, if_pos hvi, hc]

/-- Witness for C9: in the state array `[false, true, true]`, the valid
site `1` receives Hamiltonian index `0`. -/
theorem hamiltonian_indices_spec_witness :
    (cpb.hamiltonianIndices [false, true, true]).indices.getD 1 (-1) =
      ((([false, true, true] : List Bool).take 1).count true : Int) :=
  (hamiltonian_indices_spec [false, true, true]).2.2.2.2.1 1 (by decide) (by decide)

lemma count_set_false (l : List Bool) (i : Nat) (h : l.getD i false = true) :
    (l.set i false).count true + 1 = l.count true := by
  induction l generalizing i with
  | nil => simp [List.getD] at h
  | cons x rest ih =>
    cases i with
    | zero =>
      have hx : x = true := by simpa using h
      subst hx
      simp [List.count_cons]
    | succ i =>
      have h' : rest.getD i false = true := by simpa using h
      have := ih i h'
      simp only [List.set_cons_succ, List.count_cons]
      omega

lemma clearLoop_count_le_of (min_neighbors : Int) (adj : List (List Nat)) (fuel : Nat)
    (hsite : ∀ st site st', cpb.clearSiteF min_neighbors adj fuel st site = some st' →
      st'.is_valid.count true ≤ st.is_valid.count true) :
    ∀ nbs st st', cpb.clearLoopF min_neighbors adj fuel st nbs = some st' →
      st'.is_valid.count true ≤ st.is_valid.count true := by
  intro nbs
  induction nbs with
  | nil =>
    intro st st' h
    simp only [cpb.clearLoopF, Option.some.injEq] at h
    rw [← h]
  | cons nb rest ihl =>
    intro st st' h
    simp only [cpb.clearLoopF] at h
    by_cases hv : st.is_valid.getD nb false
    · rw [if_pos hv] at h
      by_cases hlt : (st.neighbor_count.set nb (st.neighbor_count.getD nb 0 - 1)).getD nb 0 <
          min_neighbors
      · rw [if_pos hlt] at h
        cases hsf : cpb.clearSiteF min_neighbors adj fuel
            ⟨st.is_valid.set nb false,
              st.neighbor_count.set nb (st.neighbor_count.getD nb 0 - 1)⟩ nb with
        | none => rw [hsf] at h; simp at h
        | some st2 =>
          rw [hsf] at h
          have h1 := ihl st2 st' h
          have h2 := hsite _ _ _ hsf
          have h3 : (st.is_valid.set nb false).count true + 1 = st.is_valid.count true :=
            count_set_false _ _ hv
          simp only at h2
          omega
      · rw [if_neg hlt] at h
        have := ihl ⟨st.is_valid, st.neighbor_count.set nb (st.neighbor_count.getD nb 0 - 1)⟩
          st' h
        simpa using this
    · rw [if_neg hv] at h
      exact ihl st st' h

lemma clearSite_count_le (min_neighbors : Int) (adj : List (List Nat)) :
    ∀ fuel st site st', cpb.clearSiteF min_neighbors adj fuel st site = some st' →
      st'.is_valid.count true ≤ st.is_valid.count true := by
  intro fuel
  induction fuel with
  | zero =>
    intro st site st' h
    simp [cpb.clearSiteF] at h
  | succ fuel ih =>
    intro st site st' h
    simp only [cpb.clearSiteF] at h
    by_cases h0 : st.neighbor_count.getD site 0 = 0
    · rw [if_pos h0] at h
      simp only [Option.some.injEq] at h
      rw [← h]
    · rw [if_neg h0] at h
      cases hlf : cpb.clearLoopF min_neighbors adj fuel st (adj.getD site []) with
      | none => rw [hlf] at h; simp at h
      | some st1 =>
        rw [hlf] at h
        simp only [Option.some.injEq] at h
        have := clearLoop_count_le_of min_neighbors adj fuel ih (adj.getD site []) st st1 hlf
        rw [← h]
        simpa using this

lemma clearLoop_isSome_of (min_neighbors : Int) (adj : List (List Nat)) (fuel : Nat)
    (hsite_some : ∀ st site, st.is_valid.count true + 1 ≤ fuel →
      (cpb.clearSiteF min_neighbors adj fuel st site).isSome = true) :
    ∀ nbs st, st.is_valid.count true ≤ fuel →
      (cpb.clearLoopF min_neighbors adj fuel st nbs).isSome = true := by
  intro nbs
  induction nbs with
  | nil =>
    intro st hst
    simp [cpb.clearLoopF]
  | cons nb rest ihl =>
    intro st hst
    simp only [cpb.clearLoopF]
    by_cases hv : st.is_valid.getD nb false
    · rw [if_pos hv]
      by_cases hlt : (st.neighbor_count.set nb (st.neighbor_count.getD nb 0 - 1)).getD nb 0 <
          min_neighbors
      · rw [if_pos hlt]
        have h3 : (st.is_valid.set nb false).count true + 1 = st.is_valid.count true :=
          count_set_false _ _ hv
        have hsome := hsite_some
          ⟨st.is_valid.set nb false,
            st.neighbor_count.set nb (st.neighbor_count.getD nb 0 - 1)⟩ nb
          (by simp only; omega)
        obtain ⟨st2, hst2⟩ := Option.isSome_iff_exists.mp hsome
        rw [hst2]
        apply ihl st2
        have h2 := clearSite_count_le min_neighbors adj fuel _ _ _ hst2
        simp only at h2
        omega
      · rw [if_neg hlt]
        have := ihl ⟨st.is_valid, st.neighbor_count.set nb (st.neighbor_count.getD nb 0 - 1)⟩
          (by simpa using hst)
        exact this
    · rw [if_neg hv]
      exact ihl st hst

lemma clearSite_isSome (min_neighbors : Int) (adj : List (List Nat)) :
    ∀ fuel st site, st.is_valid.count true + 1 ≤ fuel →
      (cpb.clearSiteF min_neighbors adj fuel st site).isSome = true := by
  intro fuel
  induction fuel with
  | zero =>
    intro st site hst
    omega
  | succ fuel ih =>
    intro st site hst
    simp only [cpb.clearSiteF]
    by_cases h0 : st.neighbor_count.getD site 0 = 0
    · rw [if_pos h0]
      rfl
    · rw [if_neg h0]
      have hloop := clearLoop_isSome_of min_neighbors adj fuel ih (adj.getD site []) st
        (by omega)
      obtain ⟨st1, hst1⟩ := Option.isSome_iff_exists.mp hloop
      rw [hst1]
      rfl

lemma removeDanglingGo_isSome (min_neighbors : Int) (adj : List (List Nat)) :
    ∀ sites fuel st, st.is_valid.count true + 1 ≤ fuel →
      (cpb.removeDanglingGo min_neighbors adj fuel st sites).isSome = true := by
  intro sites
  induction sites with
  | nil =>
    intro fuel st hst
    simp [cpb.removeDanglingGo]
  | cons i rest ih =>
    intro fuel st hst
    simp only [cpb.removeDanglingGo]
    by_cases hv : st.is_valid.getD i false
    · rw [if_pos hv]
      exact ih fuel st hst
    · rw [if_neg hv]
      have hsome := clearSite_isSome min_neighbors adj fuel st i hst
      obtain ⟨st1, h1⟩ := Option.isSome_iff_exists.mp hsome
      rw [h1]
      apply ih fuel st1
      have := clearSite_count_le min_neighbors adj fuel st i st1 h1
      omega

/-- C10: `remove_dangling` and its helper `clear_neighbors` terminate on
every foundation state, adjacency and `min_neighbors` value: each nested
`clear_neighbors` call is made only after a previously valid neighbour
site is marked invalid, so a recursion-depth budget of one more than the
number of valid sites — itself at most the number of sites of the
foundation — is never exhausted, neither by a direct `clear_neighbors`
call nor by the full `remove_dangling` sweep. -/
theorem remove_dangling_terminates (min_neighbors : Int) (adj : List (List Nat))
    (st : cpb.FState) :
    (cpb.remove_dangling min_neighbors adj st).isSome = true ∧
    (∀ site : Nat,
      (cpb.clearSiteF min_neighbors adj (st.is_valid.count true + 1) st site).isSome = true) ∧
    st.is_valid.count true ≤ st.is_valid.length := by
  refine ⟨?_, ?_, List.count_le_length true st.is_valid⟩
  · apply removeDanglingGo_isSome
    have := List.count_le_length true st.is_valid
    omega
  · intro site
    exact clearSite_isSome min_neighbors adj _ st site (le_refl _)

/-! ## KPM engine theorems -/

/-- C2 counterexample: a deferred LDOS request is created while the
engine's bound model is `0`; the model is then replaced by `1`; executing
the deferred unit of work does not return the result immediate execution
would have produced at creation time — the lambda of `deferred_ldos`
holds the engine by reference (`[=, &kpm]`), so the computation runs
against the replaced model. -/
theorem deferred_ldos_counterexample :
    ¬ ((cpb.kpm.deferred_ldos [0] 1 (0, 0, 0) "A").run
          ((cpb.kpm.KPMState.mk (0 : Int)).set_model 1) =
        cpb.kpm.calc_ldos (cpb.kpm.KPMState.mk (0 : Int)).model
          (cpb.kpm.deferred_ldos [0] 1 (0, 0, 0) "A").args) := by
  decide

/-- C2 amended: `deferred_ldos` captures the energy, broadening, position
and sublattice arguments by value at creation time (plus shared ownership
of the engine object, which it keeps alive), but the engine itself only
by reference; executing the deferred unit of work therefore computes from
the engine's model as it is at execution time with the creation-time
argument values — it equals immediate execution at execution time, and is
affected by a model replacement between creation and execution. -/
theorem deferred_ldos_uses_exec_time_model (M : Type) (e : cpb.kpm.KPMState M)
    (m : M) (energy : List Int) (broadening : Int) (position : Int × Int × Int)
    (sublattice : String) :
    (cpb.kpm.deferred_ldos energy broadening position sublattice).run (e.set_model m) =
      cpb.kpm.calc_ldos m ⟨energy, broadening, position, sublattice⟩ ∧
    (cpb.kpm.deferred_ldos energy broadening position sublattice).run e =
      cpb.kpm.calc_ldos e.model ⟨energy, broadening, position, sublattice⟩ :=
  ⟨rfl, rfl⟩

/-- C6: replacing the engine's bound model clears the cached `Bounds` and
every cached `OptimizedHamiltonian` state, so the next computation
rebuilds both from the new model — whatever was cached before, the state
returned for any seed set after `set_model` is built from the new model
and freshly estimated bounds, never served stale. -/
theorem set_model_invalidates_caches {M B O : Type} (estimate : M → B)
    (build : M → B → List Nat → O) (e : cpb.kpm.Engine M B O) (m : M)
    (seeds : List Nat) :
    (e.set_model m).bounds_cache = none ∧
    (e.set_model m).oh_cache = [] ∧
    ((e.set_model m).get_oh estimate build seeds).1 = build m (estimate m) seeds :=
  ⟨rfl, rfl, rfl⟩

/-- C7: the per-step reachable-size sequence of an
`OptimizedHamiltonian` state is monotonically non-decreasing, and every
element of it is bounded above by the full matrix dimension. -/
theorem opt_ham_sizes_monotone_bounded {n : Nat} (adj : Fin n → Finset (Fin n))
    (seeds : Finset (Fin n)) :
    Monotone (cpb.kpm.sizes adj seeds) ∧ ∀ k, cpb.kpm.sizes adj seeds k ≤ n := by
  constructor
  · apply monotone_nat_of_le_succ
    intro k
    apply Finset.card_le_card
    simp only [cpb.kpm.reachable]
    exact Finset.subset_union_left
  · intro k
    have := Finset.card_le_univ (cpb.kpm.reachable adj seeds k)
    simpa [cpb.kpm.sizes] using this

/-- Witness for C7: a two-site graph with self-loops, seeded at site 0. -/
theorem opt_ham_sizes_monotone_bounded_witness :
    cpb.kpm.sizes (fun i : Fin 2 => {i}) ({0} : Finset (Fin 2)) 3 ≤ 2 :=
  (opt_ham_sizes_monotone_bounded (fun i : Fin 2 => {i}) ({0} : Finset (Fin 2))).2 3
